import Mathlib

/-!
Verification development for the alx alias manager's shell-dialect
translation subsystem.

Shallow embedding conventions:
* Rust `String` / `&str` values are embedded as `List Char` (abbreviated
  `Chars` below); Rust string operations become explicit list recursions.
* Fallible Rust functions returning `Result<T, AlxError>` become
  `Except AlxError T`.
* Ambient state (the `SHELL` environment variable, the process table
  consulted through `ps`) is passed explicitly as parameters.
* The dialect handler files `src/shell/bash.rs`, `src/shell/zsh.rs` and
  `src/shell/fish.rs` are declared in `src/shell/mod.rs` but are not part
  of the available sources; the corresponding definitions below are
  modelled from the specification and are marked `Modelled from the spec:`
  in their doc comments.
-/

abbrev Chars := List Char

deriving instance DecidableEq for Except

/-- Embeds the error enum `AlxError` of `src/error.rs`.  The `IoError`,
`SerializationError`, `DeserializationError` and `JsonError` wrappers carry
foreign library payloads and are not reachable from any embedded function,
so they are omitted. -/
inductive AlxError where
  | AliasExists (name : Chars)
  | AliasNotFound (name : Chars)
  | InvalidAliasName (msg : Chars)
  | InvalidCommand (msg : Chars)
  | ConfigError (msg : Chars)
  | ShellDetectionFailed
  | UnsupportedShell (name : Chars)
deriving DecidableEq, Repr

/-- Embeds `ShellType` of `src/shell/mod.rs`. -/
inductive ShellType where
  | Bash
  | Zsh
  | Fish
deriving DecidableEq, Repr

/-- Embeds `ShellType::as_str` of `src/shell/mod.rs`. -/
def ShellType.as_str : ShellType → Chars
  | .Bash => "bash".toList
  | .Zsh => "zsh".toList
  | .Fish => "fish".toList

/-- Embeds the `Alias` struct of `src/alias/mod.rs`.  The chrono
timestamps are embedded as abstract `Nat` clock values. -/
structure Alias where
  name : Chars
  command : Chars
  description : Option Chars
  group : Option Chars
  created_at : Nat
  updated_at : Nat
deriving DecidableEq, Repr

/-- Embeds `Alias::new` of `src/alias/mod.rs` (`Utc::now()` is abstracted
to clock value `0`; no claim depends on timestamps). -/
def Alias.mk_new (name command : Chars) : Alias :=
  { name := name, command := command, description := none, group := none,
    created_at := 0, updated_at := 0 }

/-- Embeds the `AliasStore` struct of `src/alias/store.rs`. -/
structure AliasStore where
  aliases : List Alias
deriving DecidableEq, Repr

/-- Embeds `AliasStore::new` of `src/alias/store.rs`. -/
def AliasStore.new_ : AliasStore := { aliases := [] }

/-- Embeds `AliasStore::exists` of `src/alias/store.rs`
(`self.aliases.iter().any(|a| a.name == name)`).  Renamed because
`exists` is reserved in Lean. -/
def AliasStore.existsName (s : AliasStore) (name : Chars) : Bool :=
  s.aliases.any (fun a => a.name == name)

/-- Embeds `AliasStore::add` of `src/alias/store.rs`.  The Rust method
mutates `&mut self` and returns `Result<()>`; the embedding returns the
post-state paired with the optional error (the early `return Err` leaves
the vector untouched, `push` appends at the end). -/
def AliasStore.addP (s : AliasStore) (a : Alias) : AliasStore × Option AlxError :=
  if s.existsName a.name then (s, some (.AliasExists a.name))
  else ({ aliases := s.aliases ++ [a] }, none)

/-- A store built only through `AliasStore::add` from `AliasStore::new`,
keeping the old store whenever `add` rejects a duplicate (as every caller
in `src/command.rs` does). -/
def AliasStore.foldAdd (l : List Alias) : AliasStore :=
  l.foldl (fun s a => (s.addP a).1) AliasStore.new_

/-- Rust `str::trim`: drop whitespace from both ends. -/
def trimChars (s : Chars) : Chars :=
  ((s.dropWhile Char.isWhitespace).reverse.dropWhile Char.isWhitespace).reverse

/-- Embeds `AliasValidator::validate_name` of `src/alias/validator.rs`.
Rust's Unicode-aware `char::is_alphabetic` / `char::is_alphanumeric` are
embedded as `Char.isAlpha` / `Char.isAlphanum`; the two agree on every
character occurring in the claims, and neither classifies any whitespace
character as alphabetic or numeric.  The `for` loop reporting the first
offending character is embedded as `List.find?`. -/
def AliasValidator.validate_name : Chars → Except AlxError Unit
  | [] => .error (.InvalidAliasName "Alias name cannot be empty".toList)
  | first :: rest =>
    if (first :: rest).contains ' ' then
      .error (.InvalidAliasName "Alias name cannot contain spaces".toList)
    else if ¬ (first.isAlpha || first = '_') then
      .error (.InvalidAliasName "Alias name must start with a letter or underscore".toList)
    else
      match (first :: rest).find? (fun c => ¬ (c.isAlphanum || c = '_' || c = '-')) with
      | some c => .error (.InvalidAliasName ("Alias name contains invalid character: ".toList ++ [c]))
      | none => .ok ()

/-- Embeds `AliasValidator::validate_command` of `src/alias/validator.rs`
(`command.trim().is_empty()`). -/
def AliasValidator.validate_command (command : Chars) : Except AlxError Unit :=
  if trimChars command = [] then
    .error (.InvalidCommand "Command cannot be empty".toList)
  else .ok ()

/-- Splits a character list on a separator character; mirrors Rust
`str::split(sep)`, which always yields at least one (possibly empty)
segment. -/
def splitOnChar (sep : Char) : Chars → List Chars
  | [] => [[]]
  | c :: rest =>
    if c = sep then [] :: splitOnChar sep rest
    else
      match splitOnChar sep rest with
      | [] => [[c]]
      | l :: ls => (c :: l) :: ls

/-- Rust `shell_path.split('/').next_back()` in `ShellDetector::detect`:
the last path segment.  `split` always yields a segment, so `next_back`
is always `Some`; the default never fires. -/
def lastSeg (s : Chars) : Chars := (splitOnChar '/' s).getLastD []

/-- Embeds `ShellDetector::is_supported` of `src/shell/detector.rs`. -/
def ShellDetector.is_supported (shell : Chars) : Bool :=
  shell == "bash".toList || shell == "zsh".toList || shell == "fish".toList

/-- Embeds `ShellDetector::parse_shell_name` of `src/shell/detector.rs`.
The Rust `unreachable!` branch (dead because it is guarded by
`is_supported`) is embedded as a duplicate of the error result. -/
def ShellDetector.parse_shell_name (name : Chars) : Except AlxError ShellType :=
  if ShellDetector.is_supported name then
    if name = "bash".toList then .ok .Bash
    else if name = "zsh".toList then .ok .Zsh
    else if name = "fish".toList then .ok .Fish
    else .error (.UnsupportedShell name)
  else .error (.UnsupportedShell name)

/-- One row of the process table consulted through `ps`: process id,
command name (`comm`, as returned trimmed by the `ps -o comm=` query in
`detect_from_parent`), and parent process id. -/
structure ProcEntry where
  pid : Nat
  comm : Chars
  ppid : Nat
deriving DecidableEq, Repr

/-- The `ps -p PID -o comm=` query: the command name of the process with
the given pid, `none` when the pid is absent or the command fails. -/
def psComm (table : List ProcEntry) (pid : Nat) : Option Chars :=
  (table.find? (fun e => e.pid == pid)).map (fun e => e.comm)

/-- Embeds `ShellDetector::detect_from_parent` of `src/shell/detector.rs`.
The Rust code runs `ps -p {std::process::id()} -o comm=`, i.e. it passes
the CURRENT process's own pid to `ps`, and converts a parse failure to
`None` via `.ok()?`.  `selfPid` is `std::process::id()`. -/
def ShellDetector.detect_from_parent (table : List ProcEntry) (selfPid : Nat) :
    Option ShellType :=
  (psComm table selfPid).bind (fun c => (ShellDetector.parse_shell_name c).toOption)

/-- Modelled from the spec: section 4.1 step 2 says the fallback queries
"the immediate parent process's command name via a process-table lookup".
This is the intended behaviour the code's `detect_from_parent` (which
queries its own pid) diverges from: look up the current process's entry,
take its parent pid, and read the parent's command name. -/
def detectFromParentIntent (table : List ProcEntry) (selfPid : Nat) :
    Option ShellType :=
  ((table.find? (fun e => e.pid == selfPid)).map (fun e => e.ppid)).bind
    (fun pp => (psComm table pp).bind
      (fun c => (ShellDetector.parse_shell_name c).toOption))

/-- Embeds `ShellDetector::detect` of `src/shell/detector.rs`.
`env` is the value of the `SHELL` environment variable (`none` when unset
or not valid unicode); `table`/`selfPid` feed the `ps` fallback. -/
def ShellDetector.detect (env : Option Chars) (table : List ProcEntry)
    (selfPid : Nat) : Except AlxError ShellType :=
  match env with
  | some shell_path => ShellDetector.parse_shell_name (lastSeg shell_path)
  | none =>
    match ShellDetector.detect_from_parent table selfPid with
    | some shell => .ok shell
    | none => .error .ShellDetectionFailed

/-- `leadsWith pat s`: does `s` start with `pat`?  (Helper for the
substring test below.) -/
def leadsWith : Chars → Chars → Bool
  | [], _ => true
  | _ :: _, [] => false
  | p :: ps, c :: cs => p == c && leadsWith ps cs

/-- Rust `str::contains(sub)`: substring containment. -/
def containsSub (hay needle : Chars) : Bool :=
  match hay with
  | [] => leadsWith needle []
  | c :: t => leadsWith needle (c :: t) || containsSub t needle

/-- Embeds `ShellDetector::detect_from_path` of `src/shell/detector.rs`.
The code uses exactly two projections of the `Path` argument:
`path.file_name().and_then(|n| n.to_str())` (here `fileName`, `none` for
paths with no final component) and `path.to_string_lossy()` (here
`pathStr`).  Error messages keep the shape `prelude ++ path`. -/
def ShellDetector.detect_from_path : Option Chars → Chars → Except AlxError ShellType
  | none, pathStr => .error (.ConfigError ("Invalid file path: ".toList ++ pathStr))
  | some file_name, pathStr =>
    if containsSub file_name "bash".toList then .ok .Bash
    else if containsSub file_name "zsh".toList then .ok .Zsh
    else if containsSub file_name "fish".toList || containsSub pathStr "fish".toList then
      .ok .Fish
    else
      .error (.ConfigError ("Could not detect shell type from file path: ".toList ++ pathStr))

/-- Modelled from the spec: section 4.3's rendering rule for the missing
`src/shell/bash.rs` / `src/shell/zsh.rs` handlers.  Wrap the command in
single quotes, escaping each embedded single quote by the POSIX
close-insert-reopen sequence (quote becomes quote backslash quote quote). -/
def escapeSq : Chars → Chars
  | [] => []
  | c :: rest =>
    if c = '\'' then '\'' :: '\\' :: '\'' :: '\'' :: escapeSq rest
    else c :: escapeSq rest

/-- Modelled from the spec: the single-quote scanner of the missing
handler parsers, the exact inverse of `escapeSq` (section 4.3: "the
parser must reverse the escaping transform exactly").  Given the text
after an opening single quote, returns the recovered content and the text
after the closing quote; `none` on an unmatched quote. -/
def scanSq : Chars → Option (Chars × Chars)
  | [] => none
  | c :: rest =>
    if c = '\'' then
      match rest with
      | '\\' :: '\'' :: '\'' :: rest2 =>
        (scanSq rest2).map (fun p => ('\'' :: p.1, p.2))
      | _ => some ([], rest)
    else (scanSq rest).map (fun p => (c :: p.1, p.2))

/-- Modelled from the spec: the double-quote scanner of the missing
handler parsers (section 4.3: "double-quoted: unescape backslash-quote
and backslash-backslash"); any other backslash is kept verbatim. -/
def scanDq : Chars → Option (Chars × Chars)
  | [] => none
  | '"' :: rest => some ([], rest)
  | '\\' :: '"' :: rest2 => (scanDq rest2).map (fun p => ('"' :: p.1, p.2))
  | '\\' :: '\\' :: rest2 => (scanDq rest2).map (fun p => ('\\' :: p.1, p.2))
  | c :: rest => (scanDq rest).map (fun p => (c :: p.1, p.2))

/-- `litMatch pat s`: strip the literal `pat` from the front of `s`,
`none` on mismatch. -/
def litMatch : Chars → Chars → Option Chars
  | [], s => some s
  | _ :: _, [] => none
  | p :: ps, c :: cs => if c = p then litMatch ps cs else none

/-- Identifier characters accepted between `alias ` and `=` by the
bash/zsh parser (section 4.3: "followed by an identifier"); the same
character set the upstream validator accepts. -/
def isIdentChar (c : Char) : Bool := c.isAlphanum || c = '_' || c = '-'

/-- Modelled from the spec: the quoted-or-bare value parser shared by the
missing handler parsers (section 4.3): single-quoted and double-quoted
values must scan to the end of the line with a matched closing quote,
anything else is taken verbatim. -/
def parseValue : Chars → Option Chars
  | '\'' :: rest =>
    match scanSq rest with
    | some (content, []) => some content
    | _ => none
  | '"' :: rest =>
    match scanDq rest with
    | some (content, []) => some content
    | _ => none
  | v => some v

/-- Modelled from the spec: the per-line alias parser of the missing
bash/zsh handlers (section 4.3): after trimming leading whitespace the
line must start with the literal `alias `, then a nonempty identifier, an
equals sign, and a value in one of the three quoting styles. -/
def parseAliasBash (line : Chars) : Option (Chars × Chars) :=
  (litMatch "alias ".toList (line.dropWhile Char.isWhitespace)).bind fun rest =>
    let name := rest.takeWhile (fun c => c != '=')
    if name = [] then none
    else if ¬ name.all isIdentChar then none
    else
      match rest.dropWhile (fun c => c != '=') with
      | '=' :: value => (parseValue value).map (fun cmd => (name, cmd))
      | _ => none

/-- Modelled from the spec: `render_line` of the missing bash handler
(section 4.3): `alias NAME='ESCAPED'`. -/
def renderLineBash (a : Alias) : Chars :=
  "alias ".toList ++ a.name ++ '=' :: '\'' :: (escapeSq a.command ++ ['\''])

/-- Modelled from the spec: the leading explanatory comment block of the
missing bash handler's `render_file` (section 4.2; its exact wording is
not recoverable from the sources). -/
def bashHeader : Chars := "# Generated by alx. Do not edit this file manually.\n".toList

/-- Modelled from the spec: `render_file` of the missing bash handler
(section 4.2): the header followed by one rendered line per record, each
terminated by a newline, accumulated in input order. -/
def renderFileBash (recs : List Alias) : Chars :=
  recs.foldl (fun acc a => acc ++ renderLineBash a ++ ['\n']) bashHeader

/-- Modelled from the spec: `parse_existing` of the missing bash handler
(section 4.2): scan line by line, keeping the lines the per-line parser
recognizes and silently skipping all others. -/
def parseExistingBash (text : Chars) : List (Chars × Chars) :=
  (splitOnChar '\n' text).filterMap parseAliasBash

/-- Modelled from the spec: the zsh handler shares the bash idiom
(section 4.3: "These two dialects share one idiom"). -/
def renderLineZsh (a : Alias) : Chars := renderLineBash a

/-- Modelled from the spec: the zsh handler's header block. -/
def zshHeader : Chars := bashHeader

/-- Modelled from the spec: `render_file` of the missing zsh handler. -/
def renderFileZsh (recs : List Alias) : Chars :=
  recs.foldl (fun acc a => acc ++ renderLineZsh a ++ ['\n']) zshHeader

/-- Modelled from the spec: `parse_existing` of the missing zsh handler. -/
def parseExistingZsh (text : Chars) : List (Chars × Chars) :=
  (splitOnChar '\n' text).filterMap parseAliasBash

/-- Modelled from the spec: `render_line` of the missing fish handler
(section 4.4): `alias NAME 'ESCAPED'` (space-separated, same single-quote
escaping as bash/zsh). -/
def renderLineFish (a : Alias) : Chars :=
  "alias ".toList ++ a.name ++ ' ' :: '\'' :: (escapeSq a.command ++ ['\''])

/-- Modelled from the spec: the fish handler's header block. -/
def fishHeader : Chars := "# Generated by alx. Do not edit this file manually.\n".toList

/-- Modelled from the spec: `render_file` of the missing fish handler. -/
def renderFileFish (recs : List Alias) : Chars :=
  recs.foldl (fun acc a => acc ++ renderLineFish a ++ ['\n']) fishHeader

/-- Modelled from the spec: the per-line alias parser of the missing fish
handler (section 4.4): after trimming leading whitespace the line must
start with `alias `, then a nonempty space-free name, a space, and a
value in one of the quoting styles. -/
def parseAliasFish (line : Chars) : Option (Chars × Chars) :=
  (litMatch "alias ".toList (line.dropWhile Char.isWhitespace)).bind fun rest =>
    let name := rest.takeWhile (fun c => c != ' ')
    if name = [] then none
    else
      match rest.dropWhile (fun c => c != ' ') with
      | ' ' :: value => (parseValue value).map (fun cmd => (name, cmd))
      | _ => none

/-- Modelled from the spec: recognizer for the opening line of a fish
function block (section 4.4), `function NAME`; the name is the first
space-separated word after the keyword. -/
def funcStart? (line : Chars) : Option Chars :=
  match litMatch "function ".toList (line.dropWhile Char.isWhitespace) with
  | none => none
  | some rest =>
    let nm := rest.takeWhile (fun c => c != ' ')
    if nm = [] then none else some nm

/-- Modelled from the spec: a function-block body line that rules the
block out as an alias (section 4.4: "a function block that contains
control flow or multiple statements is not an alias"). -/
def isControlLine (t : Chars) : Bool :=
  leadsWith "if ".toList t || leadsWith "for ".toList t ||
  leadsWith "while ".toList t || leadsWith "switch ".toList t ||
  leadsWith "begin".toList t || t.contains ';'

/-- Modelled from the spec: the single wrapped command of a function
block, when the block qualifies as an alias: exactly one nonblank body
line, which is not a control-flow or multi-statement line. -/
def simpleBody (body : List Chars) : Option Chars :=
  match body.filter (fun l => !(trimChars l).isEmpty) with
  | [b] =>
    let t := trimChars b
    if isControlLine t then none else some t
  | _ => none

/-- Modelled from the spec: `parse_existing` of the missing fish handler
as a line state machine.  In the normal state a line opens a function
block, parses as an alias line, or is skipped; inside a block, lines
accumulate until a bare `end`, at which point a single-command block
yields a pair and anything else is skipped (as is an unterminated
block). -/
def fishGoAux : Option (Chars × List Chars) → List Chars → List (Chars × Chars)
  | none, [] => []
  | none, l :: ls =>
    match funcStart? l with
    | some fn => fishGoAux (some (fn, [])) ls
    | none =>
      match parseAliasFish l with
      | some p => p :: fishGoAux none ls
      | none => fishGoAux none ls
  | some _, [] => []
  | some (fn, body), l :: ls =>
    if trimChars l = "end".toList then
      match simpleBody body with
      | some cmd => (fn, cmd) :: fishGoAux none ls
      | none => fishGoAux none ls
    else fishGoAux (some (fn, body ++ [l])) ls

/-- Modelled from the spec: `parse_existing` of the missing fish handler. -/
def parseExistingFish (text : Chars) : List (Chars × Chars) :=
  fishGoAux none (splitOnChar '\n' text)

/-- Dialect dispatch for `parse_existing`, mirroring the
`match shell_type` dispatch in `src/command.rs` (`migrate`). -/
def parseExisting : ShellType → Chars → List (Chars × Chars)
  | .Bash, text => parseExistingBash text
  | .Zsh, text => parseExistingZsh text
  | .Fish, text => parseExistingFish text

/-- Dialect dispatch for `render_file`, mirroring the `match shell_type`
dispatch in `src/command.rs` (`sync_aliases`). -/
def generateFile : ShellType → List Alias → Chars
  | .Bash, recs => renderFileBash recs
  | .Zsh, recs => renderFileZsh recs
  | .Fish, recs => renderFileFish recs

/-- The per-dialect header block. -/
def headerOf : ShellType → Chars
  | .Bash => bashHeader
  | .Zsh => zshHeader
  | .Fish => fishHeader

/-- The per-dialect rendered line. -/
def renderLineOf : ShellType → Alias → Chars
  | .Bash, a => renderLineBash a
  | .Zsh, a => renderLineZsh a
  | .Fish, a => renderLineFish a

/-- Concatenation of a list of character lists (used to state the shape
of `render_file`). -/
def catAll : List Chars → Chars
  | [] => []
  | l :: ls => l ++ catAll ls

/-- Embeds the per-pair import loop of `migrate` in `src/command.rs`
(lines 508-517): an already-present name is skipped, a fresh name is
added through `AliasStore::add` whose error, were it ever produced, would
propagate. -/
def migrateLoop (store : AliasStore) : List (Chars × Chars) → Except AlxError AliasStore
  | [] => .ok store
  | (name, command) :: rest =>
    if store.existsName name then migrateLoop store rest
    else
      match store.addP (Alias.mk_new name command) with
      | (s', none) => migrateLoop s' rest
      | (_, some e) => .error e

/-- Embeds the core of `migrate` in `src/command.rs` (lines 498-528)
after the parse step: an empty parse result short-circuits to success
with the store untouched ("No aliases found in the configuration file"),
otherwise the import loop runs. -/
def migrateProcess (store : AliasStore) (parsed : List (Chars × Chars)) :
    Except AlxError AliasStore :=
  match parsed with
  | [] => .ok store
  | parsed => migrateLoop store parsed

/-! ### Helper lemmas -/

theorem takeWhile_app (p : Char → Bool) (l1 l2 : Chars)
    (h : ∀ c ∈ l1, p c = true) :
    (l1 ++ l2).takeWhile p = l1 ++ l2.takeWhile p := by
  induction l1 with
  | nil => simp
  | cons c cs ih =>
    have hc : p c = true := h c (by simp)
    simp [List.takeWhile_cons, hc]
    exact ih (fun d hd => h d (by simp [hd]))

theorem dropWhile_app (p : Char → Bool) (l1 l2 : Chars)
    (h : ∀ c ∈ l1, p c = true) :
    (l1 ++ l2).dropWhile p = l2.dropWhile p := by
  induction l1 with
  | nil => simp
  | cons c cs ih =>
    have hc : p c = true := h c (by simp)
    simp [List.dropWhile_cons, hc]
    exact ih (fun d hd => h d (by simp [hd]))

theorem litMatch_self (pre rest : Chars) : litMatch pre (pre ++ rest) = some rest := by
  induction pre with
  | nil => simp [litMatch]
  | cons p ps ih => simp [litMatch, ih]

theorem scanSq_escape (cmd : Chars) :
    scanSq (escapeSq cmd ++ ['\'']) = some (cmd, []) := by
  induction cmd with
  | nil => simp [escapeSq, scanSq]
  | cons c cs ih =>
    by_cases hc : c = '\''
    · subst hc
      simp [escapeSq, scanSq, ih]
    · rw [show escapeSq (c :: cs) = c :: escapeSq cs from by simp [escapeSq, hc]]
      rw [List.cons_append, scanSq.eq_def]
      simp [hc, ih]

theorem splitOnChar_app (sep : Char) (l r : Chars) (h : sep ∉ l) :
    splitOnChar sep (l ++ sep :: r) = l :: splitOnChar sep r := by
  induction l with
  | nil => simp [splitOnChar]
  | cons c cs ih =>
    have hc : ¬ c = sep := fun e => h (by simp [e])
    have ih' := ih (fun e => h (by simp [e]))
    simp [splitOnChar, hc, ih']

theorem not_mem_escapeSq (cmd : Chars) (c : Char) (h1 : c ∉ cmd) (h2 : c ≠ '\'')
    (h3 : c ≠ '\\') : c ∉ escapeSq cmd := by
  induction cmd with
  | nil => simp [escapeSq]
  | cons d ds ih =>
    have hd1 : c ≠ d := fun e => h1 (by simp [e])
    have hds : c ∉ ds := fun e => h1 (by simp [e])
    by_cases hd : d = '\''
    · subst hd
      simp [escapeSq, h2, h3]
      exact ih hds
    · simp [escapeSq, hd, hd1]
      exact ih hds

theorem identChar_ne (c x : Char) (h : isIdentChar c = true)
    (hx : isIdentChar x = false) : c ≠ x := by
  intro e
  rw [e, hx] at h
  exact Bool.noConfusion h

theorem identChar_not_ws (c : Char) (h : isIdentChar c = true) :
    c.isWhitespace = false := by
  by_contra hw
  have hw' : c.isWhitespace = true := by
    revert hw
    cases c.isWhitespace <;> simp
  have : c = ' ' ∨ c = '\t' ∨ c = '\r' ∨ c = '\n' := by
    simpa [Char.isWhitespace, or_assoc] using hw'
  rcases this with e | e | e | e <;> subst e <;> exact absurd h (by decide)

theorem dropWhile_alias_app (X : Chars) :
    ("alias ".toList ++ X).dropWhile Char.isWhitespace = "alias ".toList ++ X := by
  have h1 : "alias ".toList = 'a' :: "lias ".toList := rfl
  rw [h1, List.cons_append, List.dropWhile_cons,
    show Char.isWhitespace 'a' = false from by decide]
  simp

theorem parseAliasBash_render (a : Alias) (hn : a.name ≠ [])
    (hid : ∀ c ∈ a.name, isIdentChar c = true) :
    parseAliasBash (renderLineBash a) = some (a.name, a.command) := by
  have hne : ∀ c ∈ a.name, (c != '=') = true := by
    intro c hc
    simpa using identChar_ne c '=' (hid c hc) (by decide)
  unfold renderLineBash parseAliasBash
  rw [List.append_assoc, dropWhile_alias_app, litMatch_self, Option.some_bind]
  simp only [takeWhile_app _ _ _ hne, dropWhile_app _ _ _ hne,
    List.takeWhile_cons, List.dropWhile_cons,
    show (('=' : Char) != '=') = false from by decide, List.append_nil,
    Bool.false_eq_true, if_false]
  rw [if_neg hn, if_neg (by simp [List.all_eq_true]; exact fun c hc => hid c hc)]
  simp only [parseValue, scanSq_escape, Option.map_some']

theorem parseAliasFish_render (a : Alias) (hn : a.name ≠ [])
    (hid : ∀ c ∈ a.name, isIdentChar c = true) :
    parseAliasFish (renderLineFish a) = some (a.name, a.command) := by
  have hne : ∀ c ∈ a.name, (c != ' ') = true := by
    intro c hc
    simpa using identChar_ne c ' ' (hid c hc) (by decide)
  unfold renderLineFish parseAliasFish
  rw [List.append_assoc, dropWhile_alias_app, litMatch_self, Option.some_bind]
  simp only [takeWhile_app _ _ _ hne, dropWhile_app _ _ _ hne,
    List.takeWhile_cons, List.dropWhile_cons,
    show ((' ' : Char) != ' ') = false from by decide, List.append_nil,
    Bool.false_eq_true, if_false]
  rw [if_neg hn]
  simp only [parseValue, scanSq_escape, Option.map_some']

theorem nl_not_mem_renderLineBash (a : Alias)
    (hid : ∀ c ∈ a.name, isIdentChar c = true) (hc : '\n' ∉ a.command) :
    '\n' ∉ renderLineBash a := by
  have hname : ('\n' : Char) ∉ a.name := fun h => by
    have := identChar_not_ws '\n' (hid _ h)
    exact absurd this (by decide)
  have hq : ('\n' : Char) ∉ escapeSq a.command :=
    not_mem_escapeSq _ _ hc (by decide) (by decide)
  unfold renderLineBash
  intro hmem
  rcases List.mem_append.mp hmem with h | h
  · rcases List.mem_append.mp h with h | h
    · exact absurd h (by decide)
    · exact hname h
  · rcases List.mem_cons.mp h with h | h
    · exact absurd h (by decide)
    · rcases List.mem_cons.mp h with h | h
      · exact absurd h (by decide)
      · rcases List.mem_append.mp h with h | h
        · exact hq h
        · exact absurd (List.mem_singleton.mp h) (by decide)

theorem nl_not_mem_renderLineFish (a : Alias)
    (hid : ∀ c ∈ a.name, isIdentChar c = true) (hc : '\n' ∉ a.command) :
    '\n' ∉ renderLineFish a := by
  have hname : ('\n' : Char) ∉ a.name := fun h => by
    have := identChar_not_ws '\n' (hid _ h)
    exact absurd this (by decide)
  have hq : ('\n' : Char) ∉ escapeSq a.command :=
    not_mem_escapeSq _ _ hc (by decide) (by decide)
  unfold renderLineFish
  intro hmem
  rcases List.mem_append.mp hmem with h | h
  · rcases List.mem_append.mp h with h | h
    · exact absurd h (by decide)
    · exact hname h
  · rcases List.mem_cons.mp h with h | h
    · exact absurd h (by decide)
    · rcases List.mem_cons.mp h with h | h
      · exact absurd h (by decide)
      · rcases List.mem_append.mp h with h | h
        · exact hq h
        · exact absurd (List.mem_singleton.mp h) (by decide)

theorem foldl_render_cat (line : Alias → Chars) (recs : List Alias) :
    ∀ acc : Chars,
      recs.foldl (fun acc a => acc ++ line a ++ ['\n']) acc =
        acc ++ catAll (recs.map (fun a => line a ++ ['\n'])) := by
  induction recs with
  | nil => intro acc; simp [catAll]
  | cons a as ih =>
    intro acc
    simp only [List.foldl_cons, List.map_cons, catAll]
    rw [ih (acc ++ line a ++ ['\n'])]
    simp [List.append_assoc]

theorem renderFileBash_eq (recs : List Alias) :
    renderFileBash recs = bashHeader ++ catAll (recs.map (fun a => renderLineBash a ++ ['\n'])) :=
  foldl_render_cat renderLineBash recs bashHeader

theorem renderFileZsh_eq (recs : List Alias) :
    renderFileZsh recs = zshHeader ++ catAll (recs.map (fun a => renderLineZsh a ++ ['\n'])) :=
  foldl_render_cat renderLineZsh recs zshHeader

theorem renderFileFish_eq (recs : List Alias) :
    renderFileFish recs = fishHeader ++ catAll (recs.map (fun a => renderLineFish a ++ ['\n'])) :=
  foldl_render_cat renderLineFish recs fishHeader

/-- The header without its terminating newline. -/
def headerLine : Chars := "# Generated by alx. Do not edit this file manually.".toList

theorem bashHeader_eq : bashHeader = headerLine ++ ['\n'] := by decide

theorem splitOnChar_lines (L : List Chars) (h : ∀ l ∈ L, '\n' ∉ l) :
    splitOnChar '\n' (catAll (L.map (fun l => l ++ ['\n']))) = L ++ [[]] := by
  induction L with
  | nil => simp [catAll, splitOnChar]
  | cons l ls ih =>
    simp only [List.map_cons, catAll]
    have h1 : '\n' ∉ l := h l (by simp)
    have ih' := ih (fun x hx => h x (by simp [hx]))
    calc splitOnChar '\n' ((l ++ ['\n']) ++ catAll (ls.map (fun l => l ++ ['\n'])))
        = splitOnChar '\n' (l ++ '\n' :: catAll (ls.map (fun l => l ++ ['\n']))) := by
          simp [List.append_assoc]
      _ = l :: splitOnChar '\n' (catAll (ls.map (fun l => l ++ ['\n']))) :=
          splitOnChar_app '\n' _ _ h1
      _ = l :: (ls ++ [[]]) := by rw [ih']
      _ = (l :: ls) ++ [[]] := rfl

theorem validate_name_ident (name : Chars)
    (h : AliasValidator.validate_name name = .ok ()) :
    name ≠ [] ∧ ∀ c ∈ name, isIdentChar c = true := by
  cases name with
  | nil => simp [AliasValidator.validate_name] at h
  | cons first rest =>
    refine ⟨by simp, ?_⟩
    rcases hf : (first :: rest).find? (fun c => ¬ (c.isAlphanum || c = '_' || c = '-'))
      with _ | c
    · intro c hc
      have := List.find?_eq_none.mp hf c hc
      simp only [decide_not, Bool.not_eq_true', Bool.not_eq_false] at this
      simpa [isIdentChar] using this
    · simp only [AliasValidator.validate_name] at h
      split_ifs at h
      all_goals rw [hf] at h; exact absurd h (by simp)

theorem fishGoAux_skip (l : Chars) (ls : List Chars) (h1 : funcStart? l = none)
    (h2 : parseAliasFish l = none) :
    fishGoAux none (l :: ls) = fishGoAux none ls := by
  simp [fishGoAux, h1, h2]

theorem fishGoAux_alias (l : Chars) (ls : List Chars) (p : Chars × Chars)
    (h1 : funcStart? l = none) (h2 : parseAliasFish l = some p) :
    fishGoAux none (l :: ls) = p :: fishGoAux none ls := by
  simp [fishGoAux, h1, h2]

theorem litMatch_function_alias (X : Chars) :
    litMatch "function ".toList ("alias ".toList ++ X) = none := by
  rw [show "alias ".toList ++ X = 'a' :: ("lias ".toList ++ X) from rfl,
    show "function ".toList = 'f' :: "unction ".toList from rfl]
  simp [litMatch]

theorem funcStart?_renderLineFish (a : Alias) :
    funcStart? (renderLineFish a) = none := by
  unfold funcStart? renderLineFish
  rw [List.append_assoc, dropWhile_alias_app, litMatch_function_alias]

theorem fishHeader_eq : fishHeader = headerLine ++ ['\n'] := by decide

theorem parseExistingBash_single (a : Alias) (hn : a.name ≠ [])
    (hid : ∀ c ∈ a.name, isIdentChar c = true) (hnl : '\n' ∉ a.command) :
    parseExistingBash (renderFileBash [a]) = [(a.name, a.command)] := by
  have hline := parseAliasBash_render a hn hid
  have hnlr := nl_not_mem_renderLineBash a hid hnl
  unfold parseExistingBash
  rw [renderFileBash_eq]
  simp only [List.map_cons, List.map_nil, catAll, List.append_nil]
  rw [bashHeader_eq, List.append_assoc,
    show (['\n'] : Chars) ++ (renderLineBash a ++ ['\n']) =
      '\n' :: (renderLineBash a ++ ['\n']) from rfl,
    splitOnChar_app '\n' headerLine _ (by decide),
    show renderLineBash a ++ ['\n'] = renderLineBash a ++ '\n' :: ([] : Chars) from rfl,
    splitOnChar_app '\n' _ _ hnlr]
  simp [List.filterMap_cons, hline,
    show parseAliasBash headerLine = none from by decide,
    show parseAliasBash [] = none from by decide, splitOnChar]

theorem parseExistingZsh_single (a : Alias) (hn : a.name ≠ [])
    (hid : ∀ c ∈ a.name, isIdentChar c = true) (hnl : '\n' ∉ a.command) :
    parseExistingZsh (renderFileZsh [a]) = [(a.name, a.command)] := by
  have h := parseExistingBash_single a hn hid hnl
  unfold parseExistingZsh renderFileZsh
  unfold parseExistingBash renderFileBash at h
  simpa [renderLineZsh, zshHeader] using h

theorem parseExistingFish_single (a : Alias) (hn : a.name ≠ [])
    (hid : ∀ c ∈ a.name, isIdentChar c = true) (hnl : '\n' ∉ a.command) :
    parseExistingFish (renderFileFish [a]) = [(a.name, a.command)] := by
  have hline := parseAliasFish_render a hn hid
  have hnlr := nl_not_mem_renderLineFish a hid hnl
  unfold parseExistingFish
  rw [renderFileFish_eq]
  simp only [List.map_cons, List.map_nil, catAll, List.append_nil]
  rw [fishHeader_eq, List.append_assoc,
    show (['\n'] : Chars) ++ (renderLineFish a ++ ['\n']) =
      '\n' :: (renderLineFish a ++ ['\n']) from rfl,
    splitOnChar_app '\n' headerLine _ (by decide),
    show renderLineFish a ++ ['\n'] = renderLineFish a ++ '\n' :: ([] : Chars) from rfl,
    splitOnChar_app '\n' _ _ hnlr]
  rw [show splitOnChar '\n' ([] : Chars) = [[]] from rfl]
  rw [fishGoAux_skip headerLine _ (by decide) (by decide)]
  rw [fishGoAux_alias _ _ _ (funcStart?_renderLineFish a) hline]
  rw [fishGoAux_skip [] [] (by decide) (by decide)]
  rfl

theorem migrateLoop_ok (parsed : List (Chars × Chars)) :
    ∀ store, ∃ s', migrateLoop store parsed = .ok s' := by
  induction parsed with
  | nil => exact fun store => ⟨store, rfl⟩
  | cons p rest ih =>
    intro store
    rcases p with ⟨n, c⟩
    by_cases he : store.existsName n = true
    · rcases ih store with ⟨s', hs⟩
      exact ⟨s', by simp [migrateLoop, he, hs]⟩
    · have he' : store.existsName n = false := by simpa using he
      rcases ih { aliases := store.aliases ++ [Alias.mk_new n c] } with ⟨s', hs⟩
      refine ⟨s', ?_⟩
      simp only [migrateLoop, he', Bool.false_eq_true, if_false,
        AliasStore.addP, Alias.mk_new]
      simpa [Alias.mk_new] using hs

theorem addP_names_nodup (s : AliasStore) (a : Alias)
    (h : (s.aliases.map (fun x => x.name)).Nodup) :
    (((s.addP a).1).aliases.map (fun x => x.name)).Nodup := by
  unfold AliasStore.addP
  by_cases he : s.existsName a.name = true
  · simpa [he] using h
  · have he' : s.existsName a.name = false := by simpa using he
    have hnotin : a.name ∉ s.aliases.map (fun x => x.name) := by
      intro hmem
      rcases List.mem_map.mp hmem with ⟨x, hx, he2⟩
      have hany : s.aliases.any (fun y => y.name == a.name) = true :=
        List.any_eq_true.mpr ⟨x, hx, by simp [he2]⟩
      rw [AliasStore.existsName] at he'
      rw [hany] at he'
      exact Bool.noConfusion he'
    simp only [he', Bool.false_eq_true, if_false, List.map_append]
    rw [List.nodup_append]
    exact ⟨h, by simp, by simpa [List.disjoint_singleton] using hnotin⟩

theorem foldAdd_nodup (l : List Alias) :
    ((AliasStore.foldAdd l).aliases.map (fun x => x.name)).Nodup := by
  suffices h : ∀ s : AliasStore, (s.aliases.map (fun x => x.name)).Nodup →
      (((l.foldl (fun s a => (s.addP a).1) s).aliases.map (fun x => x.name)).Nodup) by
    exact h AliasStore.new_ (by simp [AliasStore.new_])
  induction l with
  | nil => intro s hs; simpa using hs
  | cons a as ih =>
    intro s hs
    exact ih _ (addP_names_nodup s a hs)

theorem parse_shell_name_of_supported (name : Chars)
    (h : ShellDetector.is_supported name = true) :
    ∃ s, ShellDetector.parse_shell_name name = .ok s := by
  have h' : name = "bash".toList ∨ name = "zsh".toList ∨ name = "fish".toList := by
    simpa [ShellDetector.is_supported, or_assoc] using h
  rcases h' with e | e | e <;> subst e
  · exact ⟨.Bash, by decide⟩
  · exact ⟨.Zsh, by decide⟩
  · exact ⟨.Fish, by decide⟩

theorem parse_shell_name_of_unsupported (name : Chars)
    (h : ShellDetector.is_supported name = false) :
    ShellDetector.parse_shell_name name = .error (.UnsupportedShell name) := by
  simp [ShellDetector.parse_shell_name, h]

theorem escapeSq_flatMap (cmd : Chars) :
    escapeSq cmd = cmd.flatMap (fun c => if c = '\'' then "'\\''".toList else [c]) := by
  induction cmd with
  | nil => simp [escapeSq]
  | cons c cs ih =>
    by_cases hc : c = '\''
    · subst hc
      simp only [escapeSq, List.flatMap_cons, if_pos rfl, ih]
      rfl
    · simp only [escapeSq, List.flatMap_cons, if_neg hc, ih]
      rfl

theorem headerOf_line (t : ShellType) : headerOf t = headerLine ++ ['\n'] := by
  cases t <;> decide

theorem generateFile_eq (t : ShellType) (recs : List Alias) :
    generateFile t recs =
      headerOf t ++ catAll (recs.map (fun a => renderLineOf t a ++ ['\n'])) := by
  cases t
  · exact renderFileBash_eq recs
  · exact renderFileZsh_eq recs
  · exact renderFileFish_eq recs

theorem catAll_trailing (L : List Chars) (hL : ∀ l ∈ L, ∃ s, l = s ++ ['\n']) :
    ∀ pre : Chars, (∃ s, pre = s ++ ['\n']) →
      ∃ s, pre ++ catAll L = s ++ ['\n'] := by
  induction L with
  | nil =>
    intro pre hpre
    simpa [catAll] using hpre
  | cons l ls ih =>
    intro pre hpre
    rcases hpre with ⟨s, hs⟩
    rcases hL l (by simp) with ⟨sl, hsl⟩
    have := ih (fun x hx => hL x (by simp [hx])) (pre ++ l)
      ⟨pre ++ sl, by rw [hsl, List.append_assoc]⟩
    rcases this with ⟨s', hs'⟩
    exact ⟨s', by rw [catAll, ← List.append_assoc, hs']⟩

theorem generateFile_lines (t : ShellType) (recs : List Alias)
    (h : ∀ a ∈ recs, '\n' ∉ renderLineOf t a) :
    splitOnChar '\n' (generateFile t recs) =
      headerLine :: (recs.map (renderLineOf t) ++ [[]]) := by
  rw [generateFile_eq, headerOf_line, List.append_assoc,
    show (['\n'] : Chars) ++ catAll (recs.map (fun a => renderLineOf t a ++ ['\n'])) =
      '\n' :: catAll (recs.map (fun a => renderLineOf t a ++ ['\n'])) from rfl,
    splitOnChar_app '\n' headerLine _ (by decide)]
  have hmm : recs.map (fun a => renderLineOf t a ++ ['\n']) =
      (recs.map (renderLineOf t)).map (fun l => l ++ ['\n']) := by
    rw [List.map_map]
    rfl
  rw [hmm, splitOnChar_lines _ (by
    intro l hl
    rcases List.mem_map.mp hl with ⟨a, ha, rfl⟩
    exact h a ha)]

/-! ### Claim theorems -/

/-- C1 (counterexample): the claim as stated fails.  The record with
validator-accepted name `x` and command `a'` newline `b` — whose command
contains an embedded single quote, satisfying the claim's precondition —
renders to a file whose alias line is broken across two physical lines,
and re-parsing recovers nothing instead of the original pair. -/
theorem roundTrip_newline_cex :
    AliasValidator.validate_name "x".toList = .ok () ∧
    ("a'\nb".toList).any (fun c => c = '\'' || c = '"' || c = '\\' || c = '|') = true ∧
    parseExistingBash (renderFileBash [Alias.mk_new "x".toList "a'\nb".toList]) ≠
      [("x".toList, "a'\nb".toList)] := by
  refine ⟨by decide, by decide, by decide⟩

/-- C1 (amended): for every record whose name passes the upstream
validator and whose command contains embedded single quotes, double
quotes, backslashes or pipes AND contains no newline, re-parsing the
rendered one-record file recovers exactly the one `(name, command)` pair,
for the Bash, Zsh and Fish handlers independently. -/
theorem roundTrip_special_chars (name cmd : Chars)
    (hv : AliasValidator.validate_name name = .ok ())
    (hnl : '\n' ∉ cmd)
    (_hsp : cmd.any (fun c => c = '\'' || c = '"' || c = '\\' || c = '|') = true) :
    parseExistingBash (renderFileBash [Alias.mk_new name cmd]) = [(name, cmd)] ∧
    parseExistingZsh (renderFileZsh [Alias.mk_new name cmd]) = [(name, cmd)] ∧
    parseExistingFish (renderFileFish [Alias.mk_new name cmd]) = [(name, cmd)] := by
  obtain ⟨hn, hid⟩ := validate_name_ident name hv
  exact ⟨parseExistingBash_single (Alias.mk_new name cmd) hn hid hnl,
    parseExistingZsh_single (Alias.mk_new name cmd) hn hid hnl,
    parseExistingFish_single (Alias.mk_new name cmd) hn hid hnl⟩

/-- C1 (witness): the amended round-trip evaluated at the concrete record
`g` / `grep 'a' | tee "b" \ c`, whose command holds all four special
characters. -/
theorem roundTrip_special_chars_witness :
    (AliasValidator.validate_name "g".toList = .ok () ∧
     '\n' ∉ "grep 'a' | tee \"b\" \\ c".toList ∧
     ("grep 'a' | tee \"b\" \\ c".toList).any
       (fun c => c = '\'' || c = '"' || c = '\\' || c = '|') = true) ∧
    parseExistingBash
        (renderFileBash [Alias.mk_new "g".toList "grep 'a' | tee \"b\" \\ c".toList]) =
      [("g".toList, "grep 'a' | tee \"b\" \\ c".toList)] :=
  ⟨⟨by decide, by decide, by decide⟩,
   (roundTrip_special_chars "g".toList "grep 'a' | tee \"b\" \\ c".toList
     (by decide) (by decide) (by decide)).1⟩

/-- C2: the bash/zsh escaping transform rewrites every single quote to
quote-backslash-quote-quote and leaves every other character alone
(stated as a per-character flatMap); rendering the command
`it's "quoted"` produces a line containing `'it'\''s "quoted"'`, and
re-parsing that line recovers the command exactly; the zsh handler
renders identically. -/
theorem bash_escape_quoted_roundtrip :
    (∀ cmd : Chars,
      escapeSq cmd = cmd.flatMap (fun c => if c = '\'' then "'\\''".toList else [c])) ∧
    containsSub (renderLineBash (Alias.mk_new "x".toList "it's \"quoted\"".toList))
      "'it'\\''s \"quoted\"'".toList = true ∧
    parseAliasBash (renderLineBash (Alias.mk_new "x".toList "it's \"quoted\"".toList)) =
      some ("x".toList, "it's \"quoted\"".toList) ∧
    renderLineZsh (Alias.mk_new "x".toList "it's \"quoted\"".toList) =
      renderLineBash (Alias.mk_new "x".toList "it's \"quoted\"".toList) :=
  ⟨escapeSq_flatMap, by decide, by decide, rfl⟩

/-- C3: with the `SHELL` environment variable set, `detect` resolves the
last path segment of its value and never consults the process table: the
result is independent of the table and pid, equals
`parse_shell_name (lastSeg v)`, and is `Zsh` for `/usr/bin/zsh`. -/
theorem detect_env_precedence (v : Chars) (t1 t2 : List ProcEntry) (p1 p2 : Nat) :
    ShellDetector.detect (some v) t1 p1 = ShellDetector.detect (some v) t2 p2 ∧
    ShellDetector.detect (some v) t1 p1 = ShellDetector.parse_shell_name (lastSeg v) ∧
    ShellDetector.detect (some "/usr/bin/zsh".toList) t1 p1 = .ok .Zsh :=
  ⟨rfl, rfl, rfl⟩

/-- C4 (counterexample): the claim's "UnsupportedShell exactly when a
signal is present naming an unsupported shell" fails for the
process-table signal: with `SHELL` unset and the `ps` query answering
`tcsh`, a signal is present and names an unsupported shell, yet `detect`
returns `ShellDetectionFailed`, because `detect_from_parent` swallows the
parse failure with `.ok()?`. -/
theorem detect_tcsh_parent_cex :
    psComm [⟨1, "tcsh".toList, 0⟩] 1 = some "tcsh".toList ∧
    ShellDetector.is_supported "tcsh".toList = false ∧
    ShellDetector.detect none [⟨1, "tcsh".toList, 0⟩] 1 = .error .ShellDetectionFailed ∧
    AlxError.ShellDetectionFailed ≠ AlxError.UnsupportedShell "tcsh".toList := by
  refine ⟨by decide, by decide, by decide, by decide⟩

/-- C4 (amended): `detect` fails with `ShellDetectionFailed` exactly when
the environment variable is absent and the process-table fallback yields
nothing — which includes the case of a present process signal naming an
unsupported shell, since the fallback converts its parse failure to
`None`; it fails with `UnsupportedShell(n)` exactly when the environment
variable is present and the last path segment of its value is an
unsupported name `n`; in particular `SHELL=/bin/tcsh` yields
`UnsupportedShell("tcsh")`. -/
theorem detect_error_taxonomy (env : Option Chars) (table : List ProcEntry)
    (selfPid : Nat) :
    (ShellDetector.detect env table selfPid = .error .ShellDetectionFailed ↔
      env = none ∧ ShellDetector.detect_from_parent table selfPid = none) ∧
    (∀ n, ShellDetector.detect env table selfPid = .error (.UnsupportedShell n) ↔
      ∃ v, env = some v ∧ n = lastSeg v ∧ ShellDetector.is_supported n = false) ∧
    ShellDetector.detect (some "/bin/tcsh".toList) table selfPid =
      .error (.UnsupportedShell "tcsh".toList) := by
  refine ⟨?_, fun n => ?_, rfl⟩
  · cases env with
    | none =>
      rcases hp : ShellDetector.detect_from_parent table selfPid with _ | s
      · simp [ShellDetector.detect, hp]
      · simp [ShellDetector.detect, hp]
    | some v =>
      simp only [ShellDetector.detect]
      by_cases hsup : ShellDetector.is_supported (lastSeg v) = true
      · rcases parse_shell_name_of_supported _ hsup with ⟨s, hs⟩
        rw [hs]
        simp
      · have hsup' : ShellDetector.is_supported (lastSeg v) = false := by
          simpa using hsup
        rw [parse_shell_name_of_unsupported _ hsup']
        simp
  · cases env with
    | none =>
      rcases hp : ShellDetector.detect_from_parent table selfPid with _ | s
      · simp [ShellDetector.detect, hp]
      · simp [ShellDetector.detect, hp]
    | some v =>
      simp only [ShellDetector.detect]
      by_cases hsup : ShellDetector.is_supported (lastSeg v) = true
      · rcases parse_shell_name_of_supported _ hsup with ⟨s, hs⟩
        rw [hs]
        constructor
        · intro h
          exact absurd h (by simp)
        · rintro ⟨v', hv', hn, hbad⟩
          obtain rfl : v = v' := by simpa using hv'
          rw [hn] at hbad
          rw [hbad] at hsup
          exact Bool.noConfusion hsup
      · have hsup' : ShellDetector.is_supported (lastSeg v) = false := by
          simpa using hsup
        rw [parse_shell_name_of_unsupported _ hsup']
        constructor
        · intro h
          have h1 : AlxError.UnsupportedShell (lastSeg v) = .UnsupportedShell n := by
            exact Except.error.inj h
          have h2 : lastSeg v = n := by
            injection h1
          exact ⟨v, rfl, h2.symm, h2 ▸ hsup'⟩
        · rintro ⟨v', hv', hn, hbad⟩
          obtain rfl : v = v' := by simpa using hv'
          rw [hn]

/-- C4 (witness): the taxonomy applied with `SHELL` set to `/bin/tcsh`
and an empty process table: the forward direction of the
`UnsupportedShell` characterization at `n = "tcsh"`. -/
theorem detect_error_taxonomy_witness :
    ∃ v, some "/bin/tcsh".toList = some v ∧ "tcsh".toList = lastSeg v ∧
      ShellDetector.is_supported "tcsh".toList = false :=
  ((detect_error_taxonomy (some "/bin/tcsh".toList) [] 0).2.1 "tcsh".toList).mp
    (by decide)

/-- C5: the fallback queries the wrong process.  The code runs
`ps -p {std::process::id()} -o comm=`, so with a process table where the
running program (pid 100, comm `alx`) has a zsh parent (pid 50), the
code's `detect_from_parent` finds its own command name `alx`, fails, and
`detect` ends in `ShellDetectionFailed`, while the spec-intended query of
the parent's command name yields `Zsh`. -/
theorem detect_from_parent_queries_self :
    ShellDetector.detect_from_parent
        [⟨100, "alx".toList, 50⟩, ⟨50, "zsh".toList, 1⟩] 100 = none ∧
    detectFromParentIntent
        [⟨100, "alx".toList, 50⟩, ⟨50, "zsh".toList, 1⟩] 100 = some .Zsh ∧
    ShellDetector.detect none
        [⟨100, "alx".toList, 50⟩, ⟨50, "zsh".toList, 1⟩] 100 =
      .error .ShellDetectionFailed := by
  refine ⟨by decide, by decide, by decide⟩

/-- C6: `detect_from_path` resolves Bash when the file name contains
"bash", otherwise Zsh when it contains "zsh", otherwise Fish when the
file name or the full path contains "fish", and otherwise fails with a
configuration error carrying the unrecognized path; `.bashrc` resolves to
Bash and `notes.txt` fails. -/
theorem detect_from_path_heuristic (fn pathStr : Chars) :
    (containsSub fn "bash".toList = true →
      ShellDetector.detect_from_path (some fn) pathStr = .ok .Bash) ∧
    (containsSub fn "bash".toList = false → containsSub fn "zsh".toList = true →
      ShellDetector.detect_from_path (some fn) pathStr = .ok .Zsh) ∧
    (containsSub fn "bash".toList = false → containsSub fn "zsh".toList = false →
      (containsSub fn "fish".toList || containsSub pathStr "fish".toList) = true →
      ShellDetector.detect_from_path (some fn) pathStr = .ok .Fish) ∧
    (containsSub fn "bash".toList = false → containsSub fn "zsh".toList = false →
      (containsSub fn "fish".toList || containsSub pathStr "fish".toList) = false →
      ShellDetector.detect_from_path (some fn) pathStr =
        .error (.ConfigError
          ("Could not detect shell type from file path: ".toList ++ pathStr))) ∧
    ShellDetector.detect_from_path (some ".bashrc".toList) "/home/u/.bashrc".toList =
      .ok .Bash ∧
    ShellDetector.detect_from_path (some "notes.txt".toList) "/home/u/notes.txt".toList =
      .error (.ConfigError
        ("Could not detect shell type from file path: ".toList ++
          "/home/u/notes.txt".toList)) := by
  refine ⟨?_, ?_, ?_, ?_, by decide, by decide⟩
  · intro h1
    simp only [ShellDetector.detect_from_path]
    rw [if_pos h1]
  · intro h1 h2
    simp only [ShellDetector.detect_from_path]
    rw [if_neg (by rw [h1]; simp), if_pos h2]
  · intro h1 h2 h3
    simp only [ShellDetector.detect_from_path]
    rw [if_neg (by rw [h1]; simp), if_neg (by rw [h2]; simp), if_pos h3]
  · intro h1 h2 h3
    simp only [ShellDetector.detect_from_path]
    rw [if_neg (by rw [h1]; simp), if_neg (by rw [h2]; simp),
      if_neg (by rw [h3]; simp)]

/-- C6 (witness): the Zsh branch of the heuristic evaluated at `.zshrc`. -/
theorem detect_from_path_heuristic_witness :
    ShellDetector.detect_from_path (some ".zshrc".toList) "/home/u/.zshrc".toList =
      .ok .Zsh :=
  (detect_from_path_heuristic ".zshrc".toList "/home/u/.zshrc".toList).2.1
    (by decide) (by decide)

/-- C7: for every dialect and input text the parse result feeds a
migration step that always succeeds, and when zero aliases are recognized
the migration completes as a successful no-op leaving the store
untouched.  (`parse_existing` itself is total in the embedding: its
result type carries no error case, as section 4.5 of the spec demands.) -/
theorem migrate_zero_aliases_noop (t : ShellType) (text : Chars)
    (store : AliasStore) :
    (∃ s', migrateProcess store (parseExisting t text) = .ok s') ∧
    (parseExisting t text = [] →
      migrateProcess store (parseExisting t text) = .ok store) := by
  constructor
  · rcases hp : parseExisting t text with _ | ⟨p, rest⟩
    · exact ⟨store, rfl⟩
    · rcases migrateLoop_ok (p :: rest) store with ⟨s', hs⟩
      exact ⟨s', by simpa [migrateProcess] using hs⟩
  · intro h
    rw [h]
    rfl

/-- C7 (witness): migrating a file holding only an `export` statement is
a successful no-op on the empty store. -/
theorem migrate_zero_aliases_noop_witness :
    migrateProcess AliasStore.new_
        (parseExisting .Bash "export FOO=bar\n".toList) = .ok AliasStore.new_ :=
  (migrate_zero_aliases_noop .Bash "export FOO=bar\n".toList AliasStore.new_).2
    (by decide)

/-- C8: for every dialect, `render_file` is the header block followed by
one rendered line per input record in input order, each line terminated
by a newline; the empty record list yields exactly the header; the output
always ends in a newline; and when no rendered line contains an embedded
newline, splitting the output on newlines yields precisely the header
line, the rendered lines in order, and the empty trailing segment.
(Byte-identity of repeated calls is immediate: the embedded function is
pure.) -/
theorem render_file_shape (t : ShellType) (recs : List Alias) :
    generateFile t recs =
      headerOf t ++ catAll (recs.map (fun a => renderLineOf t a ++ ['\n'])) ∧
    generateFile t [] = headerOf t ∧
    (∃ s, generateFile t recs = s ++ ['\n']) ∧
    ((∀ a ∈ recs, '\n' ∉ renderLineOf t a) →
      splitOnChar '\n' (generateFile t recs) =
        headerLine :: (recs.map (renderLineOf t) ++ [[]])) := by
  refine ⟨generateFile_eq t recs, ?_, ?_, generateFile_lines t recs⟩
  · rw [generateFile_eq]
    simp [catAll]
  · rw [generateFile_eq t recs]
    exact catAll_trailing _
      (fun l hl => by
        rcases List.mem_map.mp hl with ⟨a, _, rfl⟩
        exact ⟨renderLineOf t a, rfl⟩)
      (headerOf t) ⟨headerLine, headerOf_line t⟩

/-- C8 (witness): the line decomposition evaluated for Bash on the
one-record list `ll` / `ls -la`. -/
theorem render_file_shape_witness :
    splitOnChar '\n' (generateFile .Bash [Alias.mk_new "ll".toList "ls -la".toList]) =
      headerLine ::
        ([Alias.mk_new "ll".toList "ls -la".toList].map (renderLineOf .Bash) ++ [[]]) :=
  (render_file_shape .Bash [Alias.mk_new "ll".toList "ls -la".toList]).2.2.2
    (by decide)

/-- C9: every name accepted by `validate_name` is non-empty and contains
no whitespace character, and every command accepted by `validate_command`
is not empty after trimming whitespace (equivalently, contains a
non-whitespace character). -/
theorem validator_invariants (name cmd : Chars) :
    (AliasValidator.validate_name name = .ok () →
      name ≠ [] ∧ ∀ c ∈ name, c.isWhitespace = false) ∧
    (AliasValidator.validate_command cmd = .ok () →
      trimChars cmd ≠ [] ∧ ∃ c ∈ cmd, c.isWhitespace = false) := by
  constructor
  · intro h
    obtain ⟨hn, hid⟩ := validate_name_ident name h
    exact ⟨hn, fun c hc => identChar_not_ws c (hid c hc)⟩
  · intro h
    have ht : trimChars cmd ≠ [] := by
      intro he
      unfold AliasValidator.validate_command at h
      rw [if_pos he] at h
      exact absurd h (by simp)
    refine ⟨ht, ?_⟩
    by_contra hno
    push_neg at hno
    have hall : ∀ c ∈ cmd, c.isWhitespace = true := by
      intro c hc
      have := hno c hc
      revert this
      cases c.isWhitespace <;> simp
    have hdrop : cmd.dropWhile Char.isWhitespace = [] :=
      List.dropWhile_eq_nil_iff.mpr hall
    apply ht
    unfold trimChars
    rw [hdrop]
    rfl

/-- C9 (witness): the invariants evaluated at the accepted name `ll` and
the accepted command `ls -la`. -/
theorem validator_invariants_witness :
    ("ll".toList ≠ [] ∧ ∀ c ∈ "ll".toList, c.isWhitespace = false) ∧
    trimChars "ls -la".toList ≠ [] :=
  ⟨(validator_invariants "ll".toList "ls -la".toList).1 (by decide),
   ((validator_invariants "ll".toList "ls -la".toList).2 (by decide)).1⟩

/-- C10: `AliasStore::add` returns `AliasExists` and leaves the alias
list unchanged exactly when the name is already present; otherwise it
succeeds and appends the alias at the end; consequently the names of a
store built only through `add` are pairwise distinct. -/
theorem store_add_unique (s : AliasStore) (a : Alias) :
    (s.existsName a.name = true → s.addP a = (s, some (.AliasExists a.name))) ∧
    (s.existsName a.name = false →
      (s.addP a).2 = none ∧ (s.addP a).1.aliases = s.aliases ++ [a]) ∧
    ((s.addP a).2 ≠ none →
      s.addP a = (s, some (.AliasExists a.name)) ∧ s.existsName a.name = true) ∧
    ∀ l : List Alias, ((AliasStore.foldAdd l).aliases.map (fun x => x.name)).Nodup := by
  refine ⟨?_, ?_, ?_, foldAdd_nodup⟩
  · intro he
    simp [AliasStore.addP, he]
  · intro he
    simp [AliasStore.addP, he]
  · intro hne
    by_cases he : s.existsName a.name = true
    · exact ⟨by simp [AliasStore.addP, he], he⟩
    · have he' : s.existsName a.name = false := by simpa using he
      exact absurd (by simp [AliasStore.addP, he'] : (s.addP a).2 = none) hne

/-- C10 (witness): adding `ll` to a store already holding `ll` is
rejected with `AliasExists` and the store is unchanged. -/
theorem store_add_unique_witness :
    AliasStore.addP ⟨[Alias.mk_new "ll".toList "ls -la".toList]⟩
        (Alias.mk_new "ll".toList "pwd".toList) =
      (⟨[Alias.mk_new "ll".toList "ls -la".toList]⟩,
        some (.AliasExists "ll".toList)) :=
  (store_add_unique ⟨[Alias.mk_new "ll".toList "ls -la".toList]⟩
    (Alias.mk_new "ll".toList "pwd".toList)).1 (by decide)
